import Mathlib

/-!
Verification development for the fees-comparison-dex repository.

The repository contains several near-identical order-book walking loops:
* src/lighter_debug.py        - LighterDebugger.calculate_slippage
* src/internal_analytic/lighter_debug.py
                              - LighterDebugger.calculate_slippage and
                                calculate_execution_cost, AvantisClient.get_data
* src/test.py                 - calculate_slippage (buy / sell modes) and the
                                ranking logic of interactive_mode
* src/orderbook.py            - calculate_multi_dex_comparison

Python floats are modelled by rationals; Python round(x, n) is modelled by
exact round-half-even on rationals.
-/

/-- A price level of one side of an order book: in the Python sources a dict
with keys price / qty (test.py) or price / remaining_base_amount
(lighter_debug.py). -/
structure Level where
  price : ℚ
  qty : ℚ
  deriving DecidableEq, Repr

/-- Round-half-even on rationals, the rounding rule of Python round(). -/
def roundHalfEven (x : ℚ) : ℤ :=
  if x - ⌊x⌋ < 1/2 then ⌊x⌋
  else if 1/2 < x - ⌊x⌋ then ⌊x⌋ + 1
  else if ⌊x⌋ % 2 = 0 then ⌊x⌋ else ⌊x⌋ + 1

/-- Python round(x, n) for a non-negative number of decimal digits. -/
def pyRound (x : ℚ) (n : ℕ) : ℚ :=
  (roundHalfEven (x * 10 ^ n) : ℚ) / 10 ^ n

namespace LighterDebug

/-! Embedding of LighterDebugger.calculate_slippage from src/lighter_debug.py
(lines 97-153).  The loop state carries the accumulator variables of the
Python loop. -/

structure WalkState where
  unfilled : ℚ
  total_qty : ℚ
  total_cost : ℚ
  filled_levels : ℕ
  deriving DecidableEq, Repr

/-- The for-loop of calculate_slippage: at each level, value = price * qty;
if unfilled <= value the level is partially consumed and the loop breaks,
otherwise the whole level is consumed.  (The printing statements of the
Python body are pure output and are omitted.) -/
def walk : List Level → WalkState → WalkState
  | [], st => st
  | l :: ls, st =>
    let value := l.price * l.qty
    if st.unfilled ≤ value then
      { unfilled := 0,
        total_qty := st.total_qty + st.unfilled / l.price,
        total_cost := st.total_cost + st.unfilled,
        filled_levels := st.filled_levels + 1 }
    else
      walk ls
        { unfilled := st.unfilled - value,
          total_qty := st.total_qty + l.qty,
          total_cost := st.total_cost + value,
          filled_levels := st.filled_levels + 1 }

structure Result where
  filled : Bool
  remaining_usd : ℚ
  avg_price : ℚ
  levels_used : ℕ
  total_qty : ℚ
  total_cost : ℚ
  deriving DecidableEq, Repr

/-- LighterDebugger.calculate_slippage of src/lighter_debug.py: run the walk
from the initial accumulators and assemble the result dict.  avg_price is
guarded by total_qty > 0; filled means unfilled <= 0.0001. -/
def calculate_slippage (levels : List Level) (order_size_usd : ℚ) : Result :=
  let st := walk levels
    { unfilled := order_size_usd, total_qty := 0, total_cost := 0, filled_levels := 0 }
  { filled := st.unfilled ≤ 1/10000,
    remaining_usd := st.unfilled,
    avg_price := if 0 < st.total_qty then st.total_cost / st.total_qty else 0,
    levels_used := st.filled_levels,
    total_qty := st.total_qty,
    total_cost := st.total_cost }

end LighterDebug

namespace InternalAnalytic

/-! Embedding of src/internal_analytic/lighter_debug.py. -/

structure WalkAcc where
  unfilled : ℚ
  total_qty : ℚ
  total_cost : ℚ
  deriving DecidableEq, Repr

/-- The for-loop of LighterDebugger.calculate_slippage (lines 84-100): identical
walking rule to the src/lighter_debug.py loop, without the level counter. -/
def walkAcc : List Level → WalkAcc → WalkAcc
  | [], st => st
  | l :: ls, st =>
    let value := l.price * l.qty
    if st.unfilled ≤ value then
      { unfilled := 0,
        total_qty := st.total_qty + st.unfilled / l.price,
        total_cost := st.total_cost + st.unfilled }
    else
      walkAcc ls
        { unfilled := st.unfilled - value,
          total_qty := st.total_qty + l.qty,
          total_cost := st.total_cost + value }

structure SlipResult where
  filled : Bool
  avg_price : ℚ
  total_qty : ℚ
  total_cost : ℚ
  remaining_usd : ℚ
  deriving DecidableEq, Repr

/-- LighterDebugger.calculate_slippage of src/internal_analytic/lighter_debug.py
(lines 78-111). -/
def calculate_slippage (levels : List Level) (order_size_usd : ℚ) : SlipResult :=
  let st := walkAcc levels { unfilled := order_size_usd, total_qty := 0, total_cost := 0 }
  { filled := st.unfilled ≤ 1/10000,
    avg_price := if 0 < st.total_qty then st.total_cost / st.total_qty else 0,
    total_qty := st.total_qty,
    total_cost := st.total_cost,
    remaining_usd := st.unfilled }

/-- The for-loop of calculate_execution_cost (lines 568-590): min-based greedy
fill, skipping levels with non-positive price or size, breaking once the
remaining budget is non-positive.  Returns (total_coins, total_cost). -/
def execWalk : List Level → ℚ → ℚ × ℚ
  | [], _ => (0, 0)
  | l :: ls, rem =>
    if rem ≤ 0 then (0, 0)
    else if l.price ≤ 0 ∨ l.qty ≤ 0 then execWalk ls rem
    else
      let maxCoins := rem / l.price
      let filled := min maxCoins l.qty
      let cost := filled * l.price
      let r := execWalk ls (rem - cost)
      (filled + r.1, cost + r.2)

structure ExecResult where
  avg_price : ℚ
  slippage_bps : ℚ
  fee_bps : ℚ
  fee_dollars : ℚ
  total_cost_bps : ℚ
  deriving DecidableEq, Repr

/-- calculate_execution_cost of src/internal_analytic/lighter_debug.py
(lines 556-609): walk the asks, reject when more than 1 USD remains
(insufficient liquidity) or nothing was bought, else report slippage versus
the book's mid price plus the venue fee.  The final remaining_usd of the loop
equals the order size minus the accumulated cost. -/
def calculate_execution_cost (asks : List Level) (mid_price : ℚ)
    (order_size_usd fee_bps : ℚ) : Option ExecResult :=
  let w := execWalk asks order_size_usd
  let remaining_usd := order_size_usd - w.2
  if 1 < remaining_usd then none
  else if w.1 = 0 then none
  else
    let avg_price := w.2 / w.1
    let slippage_bps := (avg_price - mid_price) / mid_price * 10000
    some { avg_price := avg_price,
           slippage_bps := slippage_bps,
           fee_bps := fee_bps,
           fee_dollars := w.2 * (fee_bps / 10000),
           total_cost_bps := slippage_bps + fee_bps }

/-- AVANTIS_ZERO_SLIPPAGE of src/internal_analytic/lighter_debug.py (and the
identical set in src/test.py line 84). -/
def AVANTIS_ZERO_SLIPPAGE : List String :=
  ["XAUUSD", "USDJPY", "GBPUSD", "EURUSD", "QQQUSD", "SPYUSD"]

/-- The spread reported by AvantisClient.get_data (lines 540-548): 0.0 for a
zero-slippage symbol, else the constant 2.0 bps.  src/test.py line 545 uses
the same rule. -/
def avantisSpreadBps (symbol : String) : ℚ :=
  if symbol ∈ AVANTIS_ZERO_SLIPPAGE then 0 else 2

/-- total_bps for the Avantis row of compare_asset (internal line 705 and
src/test.py line 547): assumed spread plus opening fee. -/
def avantisTotalBps (symbol : String) (openingFeeBps : ℚ) : ℚ :=
  avantisSpreadBps symbol + openingFeeBps

end InternalAnalytic

/-! Stable sorting by a rational key, modelling Python sorted(xs, key=...)
(Timsort is stable: elements with equal keys keep their original order).
Descending order (reverse=True) is modelled by negating the key, which is
also stable. -/

/-- Insert x behind every element whose key it does not strictly undercut:
the insertion step of a stable insertion sort. -/
def insertSorted {α : Type} (key : α → ℚ) (x : α) : List α → List α
  | [] => [x]
  | y :: ys => if key x ≤ key y then x :: y :: ys else y :: insertSorted key x ys

/-- Stable sort ascending by key: Python sorted(xs, key=key). -/
def sortByKey {α : Type} (key : α → ℚ) : List α → List α
  | [] => []
  | x :: xs => insertSorted key x (sortByKey key xs)

namespace TestPy

/-! Embedding of calculate_slippage of src/test.py (lines 268-378) and of the
ranking step of its interactive_mode (line 637). -/

inductive Side where
  | buy
  | sell
  deriving DecidableEq, Repr

/-- An order book as returned by the API clients of src/test.py. -/
structure Orderbook where
  bids : List Level
  asks : List Level
  deriving Repr

structure WalkState where
  remaining : ℚ
  total_qty : ℚ
  total_cost : ℚ
  levels_used : ℕ
  worst_price : ℚ
  deriving DecidableEq, Repr

/-- The for-loop of calculate_slippage (lines 294-342).  Levels with
non-positive quantity or price are skipped without counting; the loop breaks
when remaining <= 0.  In sell mode, the USD size is converted into a coin
amount at the mid price at the first counted level (levels_used == 1). -/
def walk (side : Side) (size_usd mid_price : ℚ) : List Level → WalkState → WalkState
  | [], st => st
  | l :: ls, st =>
    if st.remaining ≤ 0 then st
    else if l.qty ≤ 0 ∨ l.price ≤ 0 then walk side size_usd mid_price ls st
    else
      let st1 : WalkState :=
        { st with levels_used := st.levels_used + 1, worst_price := l.price }
      match side with
      | .buy =>
        let value := l.qty * l.price
        if st1.remaining ≤ value then
          { st1 with
            total_qty := st1.total_qty + st1.remaining / l.price,
            total_cost := st1.total_cost + st1.remaining,
            remaining := 0 }
        else
          walk .buy size_usd mid_price ls
            { st1 with
              total_qty := st1.total_qty + l.qty,
              total_cost := st1.total_cost + value,
              remaining := st1.remaining - value }
      | .sell =>
        let rem := if st1.levels_used = 1 then size_usd / mid_price else st1.remaining
        if rem ≤ l.qty then
          { st1 with
            total_qty := st1.total_qty + rem,
            total_cost := st1.total_cost + rem * l.price,
            remaining := 0 }
        else
          walk .sell size_usd mid_price ls
            { st1 with
              total_qty := st1.total_qty + l.qty,
              total_cost := st1.total_cost + l.qty * l.price,
              remaining := rem - l.qty }

/-- The three shapes of value calculate_slippage returns: None, the
partial-fill dict of lines 347-351, and the full-fill dict of lines 370-378. -/
inductive Outcome where
  | noData
  | notFilled (filled_percent : ℚ)
  | filledAt (slippage_bps effective_spread_bps : ℚ) (levels_used : ℕ)
      (avg_price best_price worst_price : ℚ)
  deriving DecidableEq, Repr

/-- Largest element of a list of rationals; Python max(...) raises on an empty
list, so the junk value for [] is never relied upon (all theorems assume a
non-empty side). -/
def listMax : List ℚ → ℚ
  | [] => 0
  | x :: xs => xs.foldl max x

/-- Smallest element of a list of rationals; same caveat as listMax. -/
def listMin : List ℚ → ℚ
  | [] => 0
  | x :: xs => xs.foldl min x

/-- calculate_slippage of src/test.py (lines 268-378): sort the side (asks
ascending for buy, bids descending for sell), compute the mid price from the
best bid and ask, walk the levels, and classify the outcome.  Rounding uses
Python round (half-even). -/
def calculate_slippage (ob : Orderbook) (size_usd : ℚ) (side : Side) : Outcome :=
  let levels := match side with
    | .buy => sortByKey (fun l => l.price) ob.asks
    | .sell => sortByKey (fun l => -l.price) ob.bids
  if levels = [] then .noData
  else
    let best_bid := listMax (ob.bids.map (fun b => b.price))
    let best_ask := listMin (ob.asks.map (fun a => a.price))
    let mid_price := (best_bid + best_ask) / 2
    let best_price := match side with | .buy => best_ask | .sell => best_bid
    let st := walk side size_usd mid_price levels
      { remaining := size_usd, total_qty := 0, total_cost := 0,
        levels_used := 0, worst_price := best_price }
    if 1/10000 < st.remaining then
      .notFilled (pyRound (match side with
        | .buy => (size_usd - st.remaining) / size_usd * 100
        | .sell => st.total_cost / size_usd * 100) 2)
    else if st.total_qty = 0 then .noData
    else
      let avg_price := st.total_cost / st.total_qty
      let slippage := match side with
        | .buy => (avg_price - mid_price) / mid_price * 100
        | .sell => (mid_price - avg_price) / mid_price * 100
      let slippage_bps := slippage * 100
      let effective_spread_bps := |(st.worst_price - best_price) / best_price| * 10000
      .filledAt (pyRound slippage_bps 2) (pyRound effective_spread_bps 2)
        st.levels_used (pyRound avg_price 6) (pyRound best_price 6)
        (pyRound st.worst_price 6)

/-- The ranking step shared by interactive_mode of src/test.py (line 637) and
of src/internal_analytic/lighter_debug.py (line 815): Python
sorted(results, key=lambda x: x[total_cost_bps]), a stable sort on the cost
alone.  A result is a (venue identifier, total cost in bps) pair. -/
def rankResults (results : List (String × ℚ)) : List (String × ℚ) :=
  sortByKey (fun r => r.2) results

end TestPy

/-- The quantity-denominated greedy walk the spec describes for sell mode
(section 4.2): the target is already a base-asset quantity and each level is
consumed by the same greedy rule, with no in-loop unit conversion.  Used to
compare the sell branch of TestPy.walk against the spec's description. -/
def specQtySellWalk : List Level → TestPy.WalkState → TestPy.WalkState
  | [], st => st
  | l :: ls, st =>
    if st.remaining ≤ 0 then st
    else if l.qty ≤ 0 ∨ l.price ≤ 0 then specQtySellWalk ls st
    else
      let st1 : TestPy.WalkState :=
        { st with levels_used := st.levels_used + 1, worst_price := l.price }
      if st1.remaining ≤ l.qty then
        { st1 with
          total_qty := st1.total_qty + st1.remaining,
          total_cost := st1.total_cost + st1.remaining * l.price,
          remaining := 0 }
      else
        specQtySellWalk ls
          { st1 with
            total_qty := st1.total_qty + l.qty,
            total_cost := st1.total_cost + l.qty * l.price,
            remaining := st1.remaining - l.qty }

namespace Normalizer

/-! The order-book normalizer.  No function of src/ implements it: the source
scripts only sort (src/test.py lines 160-161) and skip non-positive entries
inside the walking loops; there is no deduplication anywhere.  The component
is therefore modelled from the spec. -/

/-- A raw level is kept only if both price and quantity are positive. -/
def isValid (l : Level) : Bool :=
  decide (0 < l.price) && decide (0 < l.qty)

/-- Insert a level into a strictly-ascending merged side: place it before the
first strictly larger price, summing quantities on a price collision. -/
def insertMerge (x : Level) : List Level → List Level
  | [] => [x]
  | y :: ys =>
    if x.price < y.price then x :: y :: ys
    else if x.price = y.price then { price := y.price, qty := y.qty + x.qty } :: ys
    else y :: insertMerge x ys

/-- Merge-and-sort a list of levels into strictly-ascending price order. -/
def mergeFold (ls : List Level) : List Level :=
  ls.foldr insertMerge []

/-- Modelled from the spec: the OrderBook Normalizer of section 4.1, absent
from src/.  Discard entries with non-positive price or quantity, merge
duplicate prices by summing quantity, and sort ascending (asks) or descending
(bids, the isBids flag). -/
def normalize (isBids : Bool) (raw : List Level) : List Level :=
  let merged := mergeFold (raw.filter isValid)
  if isBids then merged.reverse else merged

/-- Total quantity posted at a given price in a list of levels. -/
def qtyAt (p : ℚ) (ls : List Level) : ℚ :=
  ((ls.filter (fun l => decide (l.price = p))).map (fun l => l.qty)).sum

end Normalizer

/-- A checked variant of LighterDebug.walk that returns none exactly where the
Python loop would raise ZeroDivisionError (the division unfilled / price in
the partial-fill branch); everywhere else it performs the same computation. -/
def LighterDebug.walkChecked : List Level → LighterDebug.WalkState →
    Option LighterDebug.WalkState
  | [], st => some st
  | l :: ls, st =>
    let value := l.price * l.qty
    if st.unfilled ≤ value then
      if l.price = 0 then none
      else
        some { unfilled := 0,
               total_qty := st.total_qty + st.unfilled / l.price,
               total_cost := st.total_cost + st.unfilled,
               filled_levels := st.filled_levels + 1 }
    else
      LighterDebug.walkChecked ls
        { unfilled := st.unfilled - value,
          total_qty := st.total_qty + l.qty,
          total_cost := st.total_cost + value,
          filled_levels := st.filled_levels + 1 }

/-- calculate_slippage with the raising division made explicit: some result on
normal termination, none when Python would raise. -/
def LighterDebug.calculate_slippage_checked (levels : List Level)
    (order_size_usd : ℚ) : Option LighterDebug.Result :=
  (LighterDebug.walkChecked levels
      { unfilled := order_size_usd, total_qty := 0, total_cost := 0,
        filled_levels := 0 }).map fun st : LighterDebug.WalkState =>
    { filled := st.unfilled ≤ 1/10000,
      remaining_usd := st.unfilled,
      avg_price := if 0 < st.total_qty then st.total_cost / st.total_qty else 0,
      levels_used := st.filled_levels,
      total_qty := st.total_qty,
      total_cost := st.total_cost }

/-- C1: the buy walk is greedy in level order: with positive remaining USD, a
level of capacity price * qty is wholly consumed (quantity taken = qty, cost =
price * qty) when the remaining USD strictly exceeds the capacity, and
otherwise is partially consumed (quantity taken = remaining / price, cost =
remaining) and the walk stops.  For asks = [(100, 5), (101, 10)] and notional
600 the result is filled with quantity 605/101 (approximately 5.990099,
within 1e-6), both levels consumed, and average price 600 divided by that
quantity (approximately 100.1653, within 1e-4). -/
theorem c1_buy_walk_greedy :
    (∀ (l : Level) (ls : List Level) (st : LighterDebug.WalkState),
      0 < l.price → 0 < l.qty → 0 < st.unfilled →
      (st.unfilled ≤ l.price * l.qty →
        LighterDebug.walk (l :: ls) st =
          { unfilled := 0,
            total_qty := st.total_qty + st.unfilled / l.price,
            total_cost := st.total_cost + st.unfilled,
            filled_levels := st.filled_levels + 1 }) ∧
      (l.price * l.qty < st.unfilled →
        LighterDebug.walk (l :: ls) st =
          LighterDebug.walk ls
            { unfilled := st.unfilled - l.price * l.qty,
              total_qty := st.total_qty + l.qty,
              total_cost := st.total_cost + l.price * l.qty,
              filled_levels := st.filled_levels + 1 })) ∧
    (LighterDebug.calculate_slippage [⟨100, 5⟩, ⟨101, 10⟩] 600).filled = true ∧
    (LighterDebug.calculate_slippage [⟨100, 5⟩, ⟨101, 10⟩] 600).levels_used = 2 ∧
    (LighterDebug.calculate_slippage [⟨100, 5⟩, ⟨101, 10⟩] 600).total_qty = 605/101 ∧
    |(605 : ℚ)/101 - 5990099/1000000| < 1/1000000 ∧
    (LighterDebug.calculate_slippage [⟨100, 5⟩, ⟨101, 10⟩] 600).avg_price =
      600 / (605/101) ∧
    |(600 : ℚ) / (605/101) - 1001653/10000| < 1/10000 := by
  refine ⟨fun l ls st hp hq hu => ⟨fun hle => ?_, fun hlt => ?_⟩, ?_, ?_, ?_, ?_, ?_, ?_⟩
  · simp only [LighterDebug.walk, if_pos hle]
  · simp only [LighterDebug.walk, if_neg (not_le.mpr hlt)]
  · norm_num [LighterDebug.calculate_slippage, LighterDebug.walk]
  · norm_num [LighterDebug.calculate_slippage, LighterDebug.walk]
  · norm_num [LighterDebug.calculate_slippage, LighterDebug.walk]
  · rw [abs_lt]; constructor <;> norm_num
  · norm_num [LighterDebug.calculate_slippage, LighterDebug.walk]
  · rw [abs_lt]; constructor <;> norm_num

/-- C1 witness: spending 200 USD against a single ask level (100, 5) is a
partial consumption of that level: quantity 200 / 100, cost 200, stop. -/
theorem c1_witness :
    LighterDebug.walk [⟨100, 5⟩] ⟨200, 0, 0, 0⟩ =
      { unfilled := 0, total_qty := 0 + 200 / 100, total_cost := 0 + 200,
        filled_levels := 0 + 1 } :=
  (c1_buy_walk_greedy.1 ⟨100, 5⟩ [] ⟨200, 0, 0, 0⟩ (by norm_num) (by norm_num)
    (by norm_num)).1 (by norm_num)

/-- C2 counterexample: at notional 0 against the book side [(100, 5)], the
internal-analytic walker returns a trivially filled result: filled = true with
zero quantity, cost and remainder — the claimed InvalidRequest failure does
not happen and a zero-filled result IS returned. -/
theorem c2_counterexample :
    (InternalAnalytic.calculate_slippage [⟨100, 5⟩] 0).filled = true ∧
    (InternalAnalytic.calculate_slippage [⟨100, 5⟩] 0).total_qty = 0 ∧
    (InternalAnalytic.calculate_slippage [⟨100, 5⟩] 0).total_cost = 0 := by
  norm_num [InternalAnalytic.calculate_slippage, InternalAnalytic.walkAcc]

theorem insertSorted_ne_nil {α : Type} (key : α → ℚ) (x : α) (l : List α) :
    insertSorted key x l ≠ [] := by
  cases l with
  | nil => simp [insertSorted]
  | cons y ys => simp only [insertSorted]; split <;> simp

theorem sortByKey_ne_nil {α : Type} (key : α → ℚ) (x : α) (l : List α) :
    sortByKey key (x :: l) ≠ [] := by
  simpa only [sortByKey] using insertSorted_ne_nil key x (sortByKey key l)

/-- A walk whose remaining budget is already non-positive touches no level. -/
theorem TestPy.walk_nonpos (side : TestPy.Side) (s mid : ℚ) (levels : List Level)
    (st : TestPy.WalkState) (h : st.remaining ≤ 0) :
    TestPy.walk side s mid levels st = st := by
  cases levels with
  | nil => rfl
  | cons l ls => simp only [TestPy.walk, if_pos h]

/-- C2 (amended): a request with notionalUsd <= 0 is not rejected — no
InvalidRequest error exists in the code.  calculate_slippage of src/test.py
consumes no level and returns None, while the internal-analytic walker
returns a trivially filled result: filled = true with total_qty =
notional / best price <= 0. -/
theorem c2_nonpositive_notional (ob : TestPy.Orderbook) (levels : List Level)
    (s : ℚ) (hs : s ≤ 0) (hbids : ob.bids ≠ []) (hasks : ob.asks ≠ [])
    (hlv : ∀ l ∈ levels, 0 < l.price ∧ 0 < l.qty) :
    TestPy.calculate_slippage ob s .buy = .noData ∧
    (InternalAnalytic.calculate_slippage levels s).filled = true ∧
    (InternalAnalytic.calculate_slippage levels s).total_qty ≤ 0 := by
  refine ⟨?_, ?_, ?_⟩
  · obtain ⟨a, as, ha⟩ := List.exists_cons_of_ne_nil hasks
    have hnn : sortByKey (fun l => l.price) ob.asks ≠ [] := by
      rw [ha]; exact sortByKey_ne_nil _ _ _
    simp only [TestPy.calculate_slippage, if_neg hnn]
    rw [TestPy.walk_nonpos _ _ _ _ _ (by simpa using hs)]
    have h1 : ¬ ((1 : ℚ)/10000 < s) := by linarith
    simp [h1]
    linarith
  · cases levels with
    | nil =>
      simp only [InternalAnalytic.calculate_slippage, InternalAnalytic.walkAcc]
      norm_num
      linarith
    | cons l ls =>
      obtain ⟨hp, hq⟩ := hlv l (List.mem_cons_self l ls)
      have hval : s ≤ l.price * l.qty := le_trans hs (by positivity)
      simp only [InternalAnalytic.calculate_slippage, InternalAnalytic.walkAcc,
        if_pos hval]
      norm_num
  · cases levels with
    | nil =>
      simp [InternalAnalytic.calculate_slippage, InternalAnalytic.walkAcc]
    | cons l ls =>
      obtain ⟨hp, hq⟩ := hlv l (List.mem_cons_self l ls)
      have hval : s ≤ l.price * l.qty := le_trans hs (by positivity)
      simp only [InternalAnalytic.calculate_slippage, InternalAnalytic.walkAcc,
        if_pos hval]
      have : s / l.price ≤ 0 := div_nonpos_iff.mpr (Or.inr ⟨hs, hp.le⟩)
      simpa using this

/-- C2 witness: the amended statement at the book bids [(99, 1)],
asks [(101, 1)], level list [(100, 5)] and notional 0. -/
theorem c2_witness :
    TestPy.calculate_slippage ⟨[⟨99, 1⟩], [⟨101, 1⟩]⟩ 0 .buy = .noData ∧
    (InternalAnalytic.calculate_slippage [⟨100, 5⟩] 0).filled = true ∧
    (InternalAnalytic.calculate_slippage [⟨100, 5⟩] 0).total_qty ≤ 0 :=
  c2_nonpositive_notional ⟨[⟨99, 1⟩], [⟨101, 1⟩]⟩ [⟨100, 5⟩] 0 (by norm_num)
    (by simp) (by simp) (by norm_num)

/-- C9: conservation of the buy walk of src/lighter_debug.py: if a state
satisfies total_cost + unfilled = order size with non-negative unfilled, so
does the state after walking any further levels (hence after every iteration),
and the returned remaining_usd equals the order size minus the total USD
spent. -/
theorem c9_conservation :
    (∀ (size : ℚ) (levels : List Level) (st : LighterDebug.WalkState),
      (∀ l ∈ levels, 0 < l.price) →
      st.total_cost + st.unfilled = size → 0 ≤ st.unfilled →
      (LighterDebug.walk levels st).total_cost +
          (LighterDebug.walk levels st).unfilled = size ∧
        0 ≤ (LighterDebug.walk levels st).unfilled) ∧
    (∀ (levels : List Level) (s : ℚ), (∀ l ∈ levels, 0 < l.price) → 0 ≤ s →
      (LighterDebug.calculate_slippage levels s).remaining_usd =
        s - (LighterDebug.calculate_slippage levels s).total_cost) := by
  have main : ∀ (size : ℚ) (levels : List Level) (st : LighterDebug.WalkState),
      st.total_cost + st.unfilled = size → 0 ≤ st.unfilled →
      (LighterDebug.walk levels st).total_cost +
          (LighterDebug.walk levels st).unfilled = size ∧
        0 ≤ (LighterDebug.walk levels st).unfilled := by
    intro size levels
    induction levels with
    | nil => intro st h1 h2; exact ⟨h1, h2⟩
    | cons l ls ih =>
      intro st h1 h2
      by_cases hle : st.unfilled ≤ l.price * l.qty
      · simp only [LighterDebug.walk, if_pos hle]
        constructor
        · simpa using by linarith
        · simp
      · simp only [LighterDebug.walk, if_neg hle]
        push_neg at hle
        exact ih _ (by simpa using by linarith) (by simpa using by linarith)
  refine ⟨fun size levels st _ h1 h2 => main size levels st h1 h2,
    fun levels s _ hs => ?_⟩
  have h := main s levels
    { unfilled := s, total_qty := 0, total_cost := 0, filled_levels := 0 }
    (by simp) (by simpa using hs)
  simp only [LighterDebug.calculate_slippage]
  linarith [h.1]

/-- C9 witness: the conservation identity at the concrete book [(100, 5)] and
order size 600. -/
theorem c9_witness :
    (LighterDebug.calculate_slippage [⟨100, 5⟩] 600).remaining_usd =
      600 - (LighterDebug.calculate_slippage [⟨100, 5⟩] 600).total_cost :=
  c9_conservation.2 [⟨100, 5⟩] 600 (by norm_num) (by norm_num)

/-- C10: totality of the walker of src/lighter_debug.py: for positive prices
and a non-negative order size, the checked embedding (which returns none
exactly where Python would raise) returns the result of the plain embedding,
and the average price is 0 whenever nothing was filled (the total_qty > 0
guard). -/
theorem c10_totality (levels : List Level) (s : ℚ)
    (hp : ∀ l ∈ levels, 0 < l.price) (hs : 0 ≤ s) :
    LighterDebug.calculate_slippage_checked levels s =
      some (LighterDebug.calculate_slippage levels s) ∧
    ((LighterDebug.calculate_slippage levels s).total_qty = 0 →
      (LighterDebug.calculate_slippage levels s).avg_price = 0) := by
  constructor
  · have main : ∀ (lv : List Level) (st : LighterDebug.WalkState),
        (∀ l ∈ lv, 0 < l.price) →
        LighterDebug.walkChecked lv st = some (LighterDebug.walk lv st) := by
      intro lv
      induction lv with
      | nil => intro st _; rfl
      | cons l ls ih =>
        intro st hlv
        have hpl : 0 < l.price := hlv l (List.mem_cons_self l ls)
        by_cases hle : st.unfilled ≤ l.price * l.qty
        · simp only [LighterDebug.walkChecked, LighterDebug.walk, if_pos hle,
            if_neg (ne_of_gt hpl)]
        · simp only [LighterDebug.walkChecked, LighterDebug.walk, if_neg hle]
          exact ih _ (fun x hx => hlv x (List.mem_cons_of_mem l hx))
    simp only [LighterDebug.calculate_slippage_checked,
      LighterDebug.calculate_slippage, main _ _ hp]
    rfl
  · intro h
    simp only [LighterDebug.calculate_slippage] at h ⊢
    simp [h]

/-- C10 witness: the checked and plain walkers agree on the book
[(100, 5), (101, 10)] at order size 600. -/
theorem c10_witness :
    LighterDebug.calculate_slippage_checked [⟨100, 5⟩, ⟨101, 10⟩] 600 =
      some (LighterDebug.calculate_slippage [⟨100, 5⟩, ⟨101, 10⟩] 600) :=
  (c10_totality [⟨100, 5⟩, ⟨101, 10⟩] 600 (by norm_num) (by norm_num)).1

/-- C5 counterexample: for the non-flagged symbol AAPL the code reports the
constant assumed spread 2.0 bps, which differs from the claimed walked
formula |avgPrice - midPrice| / midPrice * 10000 evaluated at a fill with
average price 100 and mid price 100 (which is 0). -/
theorem c5_counterexample :
    InternalAnalytic.avantisSpreadBps ("AAPL") ≠ |(100 : ℚ) - 100| / 100 * 10000 := by
  simp only [InternalAnalytic.avantisSpreadBps]
  rw [if_neg (by decide)]
  norm_num

/-- C5 (amended): for a symbol in AVANTIS_ZERO_SLIPPAGE the reported slippage
is exactly 0 — independent of any walked average or mid price — and with
openingBps = 6 the total cost is exactly 6 bps; for a symbol without the flag
the Avantis path reports the constant assumed spread 2.0 bps, not the walked
slippage formula. -/
theorem c5_forced_zero_slippage (symbol : String)
    (h : symbol ∈ InternalAnalytic.AVANTIS_ZERO_SLIPPAGE) :
    (∀ avgPrice midPrice : ℚ, InternalAnalytic.avantisSpreadBps symbol = 0) ∧
    InternalAnalytic.avantisTotalBps symbol 6 = 6 ∧
    (∀ other : String, other ∉ InternalAnalytic.AVANTIS_ZERO_SLIPPAGE →
      InternalAnalytic.avantisSpreadBps other = 2) := by
  refine ⟨fun _ _ => ?_, ?_, fun other ho => ?_⟩
  · simp [InternalAnalytic.avantisSpreadBps, h]
  · simp [InternalAnalytic.avantisTotalBps, InternalAnalytic.avantisSpreadBps, h]
  · simp [InternalAnalytic.avantisSpreadBps, ho]

/-- C5 witness: the amended statement at the flagged symbol XAUUSD with an
arbitrary walked average price 123 against mid price 100. -/
theorem c5_witness :
    InternalAnalytic.avantisSpreadBps ("XAUUSD") = 0 ∧
    InternalAnalytic.avantisTotalBps ("XAUUSD") 6 = 6 :=
  ⟨(c5_forced_zero_slippage ("XAUUSD") (by decide)).1 123 100,
   (c5_forced_zero_slippage ("XAUUSD") (by decide)).2.1⟩

theorem mem_insertSorted {α : Type} (key : α → ℚ) (x z : α) (l : List α) :
    z ∈ insertSorted key x l ↔ z = x ∨ z ∈ l := by
  induction l with
  | nil => simp [insertSorted]
  | cons y ys ih =>
    simp only [insertSorted]
    split
    · simp [or_comm, or_assoc, or_left_comm]
    · simp only [List.mem_cons, ih]
      tauto

theorem insertSorted_pairwise {α : Type} (key : α → ℚ) (x : α) (l : List α)
    (h : l.Pairwise (fun a b => key a ≤ key b)) :
    (insertSorted key x l).Pairwise (fun a b => key a ≤ key b) := by
  induction l with
  | nil => simp [insertSorted]
  | cons y ys ih =>
    rw [List.pairwise_cons] at h
    obtain ⟨hy, hys⟩ := h
    simp only [insertSorted]
    split
    · rename_i hk
      refine List.Pairwise.cons ?_ (List.Pairwise.cons hy hys)
      intro z hz
      rcases List.mem_cons.mp hz with rfl | hz
      · exact hk
      · exact le_trans hk (hy z hz)
    · rename_i hk
      refine List.Pairwise.cons ?_ (ih hys)
      intro z hz
      rcases (mem_insertSorted key x z ys).mp hz with rfl | hz
      · exact (le_of_lt (not_le.mp hk))
      · exact hy z hz

theorem sortByKey_pairwise {α : Type} (key : α → ℚ) (l : List α) :
    (sortByKey key l).Pairwise (fun a b => key a ≤ key b) := by
  induction l with
  | nil => simp [sortByKey]
  | cons x xs ih => exact insertSorted_pairwise key x _ ih

theorem insertSorted_filter_key {α : Type} (key : α → ℚ) (x : α) (l : List α)
    (k : ℚ) :
    (insertSorted key x l).filter (fun a => decide (key a = k)) =
      (x :: l).filter (fun a => decide (key a = k)) := by
  induction l with
  | nil => rfl
  | cons y ys ih =>
    simp only [insertSorted]
    split
    · rfl
    · rename_i hk
      by_cases hx : key x = k
      · by_cases hy : key y = k
        · exact absurd (le_of_eq (hx.trans hy.symm)) hk
        · simp [List.filter_cons, hx, hy, ih]
      · by_cases hy : key y = k
        · simp [List.filter_cons, hx, hy, ih]
        · simp [List.filter_cons, hx, hy, ih]

theorem sortByKey_filter_key {α : Type} (key : α → ℚ) (l : List α) (k : ℚ) :
    (sortByKey key l).filter (fun a => decide (key a = k)) =
      l.filter (fun a => decide (key a = k)) := by
  induction l with
  | nil => rfl
  | cons x xs ih =>
    rw [sortByKey, insertSorted_filter_key]
    by_cases hx : key x = k <;> simp [List.filter_cons, hx, ih]

/-- C6 counterexample: two results with equal totalCostBps keep their append
order — Hyperliquid (appended first) stays before Avantis — although Avantis
is the lexically smaller venue identifier, so the claimed lexical tie-break
does not hold. -/
theorem c6_counterexample :
    TestPy.rankResults [("Hyperliquid", 6), ("Avantis", 6)] =
      [("Hyperliquid", 6), ("Avantis", 6)] ∧
    ("Avantis" : String) < ("Hyperliquid" : String) := by
  constructor
  · norm_num [TestPy.rankResults, sortByKey, insertSorted]
  · rw [String.lt_iff_toList_lt]
    decide

/-- C6 (amended): the ranker orders results ascending by totalCostBps using a
stable sort: results with equal totalCostBps keep their original (append)
order — the tie-break is insertion order, not the lexically smaller venue
identifier. -/
theorem c6_ranking_stable_sort :
    (∀ l : List (String × ℚ),
      (TestPy.rankResults l).Pairwise (fun a b => a.2 ≤ b.2)) ∧
    (∀ (l : List (String × ℚ)) (k : ℚ),
      (TestPy.rankResults l).filter (fun r => decide (r.2 = k)) =
        l.filter (fun r => decide (r.2 = k))) := by
  exact ⟨fun l => sortByKey_pairwise _ l, fun l k => sortByKey_filter_key _ l k⟩

namespace Normalizer

theorem isValid_iff (l : Level) : isValid l = true ↔ 0 < l.price ∧ 0 < l.qty := by
  simp [isValid]

theorem insertMerge_price_pred (P : ℚ → Prop) (x : Level) (l : List Level)
    (hx : P x.price) (hl : ∀ w ∈ l, P w.price) :
    ∀ z ∈ insertMerge x l, P z.price := by
  induction l with
  | nil => intro z hz; simp only [insertMerge, List.mem_singleton] at hz; subst hz; exact hx
  | cons y ys ih =>
    intro z hz
    simp only [insertMerge] at hz
    split at hz
    · rcases List.mem_cons.mp hz with rfl | hz
      · exact hx
      · exact hl z hz
    · split at hz
      · rcases List.mem_cons.mp hz with rfl | hz
        · exact hl y (List.mem_cons_self y ys)
        · exact hl z (List.mem_cons_of_mem y hz)
      · rcases List.mem_cons.mp hz with rfl | hz
        · exact hl _ (List.mem_cons_self _ _)
        · exact ih (fun w hw => hl w (List.mem_cons_of_mem y hw)) z hz

theorem insertMerge_valid (x : Level) (l : List Level)
    (hx : 0 < x.price ∧ 0 < x.qty) (hl : ∀ w ∈ l, 0 < w.price ∧ 0 < w.qty) :
    ∀ z ∈ insertMerge x l, 0 < z.price ∧ 0 < z.qty := by
  induction l with
  | nil => intro z hz; simp only [insertMerge, List.mem_singleton] at hz; subst hz; exact hx
  | cons y ys ih =>
    intro z hz
    have hy := hl y (List.mem_cons_self y ys)
    simp only [insertMerge] at hz
    split at hz
    · rcases List.mem_cons.mp hz with rfl | hz
      · exact hx
      · exact hl z hz
    · split at hz
      · rcases List.mem_cons.mp hz with rfl | hz
        · exact ⟨hy.1, by have := hx.2; have := hy.2; positivity⟩
        · exact hl z (List.mem_cons_of_mem y hz)
      · rcases List.mem_cons.mp hz with rfl | hz
        · exact hy
        · exact ih (fun w hw => hl w (List.mem_cons_of_mem y hw)) z hz

theorem insertMerge_pairwise (x : Level) (l : List Level)
    (h : l.Pairwise (fun a c => a.price < c.price)) :
    (insertMerge x l).Pairwise (fun a c => a.price < c.price) := by
  induction l with
  | nil => simp [insertMerge]
  | cons y ys ih =>
    rw [List.pairwise_cons] at h
    obtain ⟨hy, hys⟩ := h
    simp only [insertMerge]
    split
    · rename_i hlt
      refine List.Pairwise.cons ?_ (List.Pairwise.cons hy hys)
      intro z hz
      rcases List.mem_cons.mp hz with rfl | hz
      · exact hlt
      · exact lt_trans hlt (hy z hz)
    · split
      · rename_i hne heq
        exact List.Pairwise.cons (fun z hz => hy z hz) hys
      · rename_i hne heq
        have hyx : y.price < x.price :=
          lt_of_le_of_ne (not_lt.mp hne) (fun h => heq h.symm)
        refine List.Pairwise.cons ?_ (ih hys)
        exact insertMerge_price_pred (fun q => y.price < q) x ys hyx hy

theorem mergeFold_valid (L : List Level)
    (hL : ∀ w ∈ L, 0 < w.price ∧ 0 < w.qty) :
    ∀ z ∈ mergeFold L, 0 < z.price ∧ 0 < z.qty := by
  induction L with
  | nil => simp [mergeFold]
  | cons x xs ih =>
    exact insertMerge_valid x (mergeFold xs)
      (hL x (List.mem_cons_self x xs))
      (ih (fun w hw => hL w (List.mem_cons_of_mem x hw)))

theorem mergeFold_pairwise (L : List Level) :
    (mergeFold L).Pairwise (fun a c => a.price < c.price) := by
  induction L with
  | nil => simp [mergeFold]
  | cons x xs ih => exact insertMerge_pairwise x (mergeFold xs) ih

theorem mergeFold_of_sorted (L : List Level)
    (h : L.Pairwise (fun a c => a.price < c.price)) : mergeFold L = L := by
  induction L with
  | nil => rfl
  | cons x xs ih =>
    rw [List.pairwise_cons] at h
    obtain ⟨hx, hxs⟩ := h
    show insertMerge x (mergeFold xs) = x :: xs
    rw [ih hxs]
    cases xs with
    | nil => rfl
    | cons y ys =>
      simp only [insertMerge, if_pos (hx y (List.mem_cons_self y ys))]

theorem insertMerge_append_of_gt (x : Level) (l : List Level)
    (h : ∀ y ∈ l, y.price < x.price) : insertMerge x l = l ++ [x] := by
  induction l with
  | nil => rfl
  | cons y ys ih =>
    have hy := h y (List.mem_cons_self y ys)
    simp only [insertMerge, if_neg (not_lt.mpr hy.le),
      if_neg (fun hc : x.price = y.price => absurd hc (ne_of_gt hy))]
    rw [ih (fun z hz => h z (List.mem_cons_of_mem y hz))]
    rfl

theorem mergeFold_of_sorted_desc (L : List Level)
    (h : L.Pairwise (fun a c => c.price < a.price)) :
    mergeFold L = L.reverse := by
  induction L with
  | nil => rfl
  | cons x xs ih =>
    rw [List.pairwise_cons] at h
    obtain ⟨hx, hxs⟩ := h
    show insertMerge x (mergeFold xs) = (x :: xs).reverse
    rw [ih hxs, List.reverse_cons]
    exact insertMerge_append_of_gt x xs.reverse
      (fun y hy => hx y (List.mem_reverse.mp hy))

theorem qtyAt_cons (p : ℚ) (a : Level) (l : List Level) :
    qtyAt p (a :: l) = (if a.price = p then a.qty else 0) + qtyAt p l := by
  simp only [qtyAt, List.filter_cons]
  by_cases h : a.price = p <;> simp [h]

theorem qtyAt_insertMerge (p : ℚ) (x : Level) (l : List Level) :
    qtyAt p (insertMerge x l) = qtyAt p (x :: l) := by
  induction l with
  | nil => rfl
  | cons y ys ih =>
    simp only [insertMerge]
    split
    · rfl
    · split
      · rename_i hne heq
        rw [qtyAt_cons, qtyAt_cons, qtyAt_cons]
        by_cases hp : y.price = p
        · rw [if_pos hp, if_pos hp, if_pos (heq.trans hp)]; ring
        · rw [if_neg hp, if_neg hp, if_neg (fun hc => hp (heq ▸ hc))]; ring
      · rw [qtyAt_cons, ih, qtyAt_cons, qtyAt_cons, qtyAt_cons]
        ring

theorem qtyAt_mergeFold (p : ℚ) (L : List Level) :
    qtyAt p (mergeFold L) = qtyAt p L := by
  induction L with
  | nil => rfl
  | cons x xs ih =>
    show qtyAt p (insertMerge x (mergeFold xs)) = _
    rw [qtyAt_insertMerge, qtyAt_cons, ih, qtyAt_cons]

theorem qtyAt_append (p : ℚ) (a c : List Level) :
    qtyAt p (a ++ c) = qtyAt p a + qtyAt p c := by
  simp [qtyAt, List.filter_append]

theorem qtyAt_singleton (p : ℚ) (x : Level) :
    qtyAt p [x] = if x.price = p then x.qty else 0 := by
  by_cases h : x.price = p <;> simp [qtyAt, h]

theorem qtyAt_reverse (p : ℚ) (l : List Level) :
    qtyAt p l.reverse = qtyAt p l := by
  induction l with
  | nil => rfl
  | cons x xs ih =>
    rw [List.reverse_cons, qtyAt_append, ih, qtyAt_singleton, qtyAt_cons]
    ring

theorem filter_isValid_of_valid (L : List Level)
    (h : ∀ w ∈ L, 0 < w.price ∧ 0 < w.qty) : L.filter isValid = L :=
  List.filter_eq_self.mpr (fun a ha => (isValid_iff a).mpr (h a ha))

end Normalizer

/-- C8 (spec-modelled): the normalizer discards entries with non-positive
price or quantity, merges duplicate prices by summing quantity (the total
quantity at each price equals the total over the surviving raw entries),
sorts strictly ascending for asks and strictly descending for bids, and is
idempotent. -/
theorem c8_normalize_idempotent (b : Bool) (raw : List Level) :
    Normalizer.normalize b (Normalizer.normalize b raw) =
      Normalizer.normalize b raw ∧
    (∀ l ∈ Normalizer.normalize b raw, 0 < l.price ∧ 0 < l.qty) ∧
    (Normalizer.normalize b raw).Pairwise
      (fun x y => if b then y.price < x.price else x.price < y.price) ∧
    (∀ p : ℚ, Normalizer.qtyAt p (Normalizer.normalize b raw) =
      Normalizer.qtyAt p (raw.filter Normalizer.isValid)) := by
  have hvalidF : ∀ w ∈ raw.filter Normalizer.isValid, 0 < w.price ∧ 0 < w.qty := by
    intro w hw
    exact (Normalizer.isValid_iff w).mp (List.of_mem_filter hw)
  have hM := Normalizer.mergeFold_valid _ hvalidF
  have hP := Normalizer.mergeFold_pairwise (raw.filter Normalizer.isValid)
  cases b with
  | false =>
    have hnorm : ∀ L : List Level,
        Normalizer.normalize false L = Normalizer.mergeFold (L.filter Normalizer.isValid) :=
      fun L => rfl
    rw [hnorm, hnorm]
    refine ⟨?_, hM, ?_, fun p => Normalizer.qtyAt_mergeFold p _⟩
    · rw [Normalizer.filter_isValid_of_valid _ hM, Normalizer.mergeFold_of_sorted _ hP]
    · exact hP.imp (fun h => by simpa using h)
  | true =>
    have hnorm : ∀ L : List Level,
        Normalizer.normalize true L =
          (Normalizer.mergeFold (L.filter Normalizer.isValid)).reverse :=
      fun L => rfl
    rw [hnorm, hnorm]
    refine ⟨?_, ?_, ?_, ?_⟩
    · have hvalidR : ∀ w ∈ (Normalizer.mergeFold (raw.filter Normalizer.isValid)).reverse,
          0 < w.price ∧ 0 < w.qty := fun w hw => hM w (List.mem_reverse.mp hw)
      rw [Normalizer.filter_isValid_of_valid _ hvalidR,
        Normalizer.mergeFold_of_sorted_desc _ (List.pairwise_reverse.mpr hP),
        List.reverse_reverse]
    · intro l hl; exact hM l (List.mem_reverse.mp hl)
    · rw [List.pairwise_reverse]
      exact hP.imp (fun h => by simpa using h)
    · intro p; rw [Normalizer.qtyAt_reverse, Normalizer.qtyAt_mergeFold]

/-- Total USD value of a list of levels (sum of qty * price, the value
computed per level by the buy walk of src/test.py). -/
def totalValue (ls : List Level) : ℚ :=
  (ls.map (fun l => l.qty * l.price)).sum

theorem insertSorted_perm {α : Type} (key : α → ℚ) (x : α) (l : List α) :
    List.Perm (insertSorted key x l) (x :: l) := by
  induction l with
  | nil => rfl
  | cons y ys ih =>
    simp only [insertSorted]
    split
    · rfl
    · exact (ih.cons y).trans (List.Perm.swap x y ys)

theorem sortByKey_perm {α : Type} (key : α → ℚ) (l : List α) :
    List.Perm (sortByKey key l) l := by
  induction l with
  | nil => rfl
  | cons x xs ih => exact (insertSorted_perm key x _).trans (ih.cons x)

theorem totalValue_perm {l l' : List Level} (h : List.Perm l l') :
    totalValue l = totalValue l' := by
  unfold totalValue
  exact (h.map (fun l => l.qty * l.price)).sum_eq

theorem totalValue_nonneg (l : List Level)
    (h : ∀ x ∈ l, 0 < x.price ∧ 0 < x.qty) : 0 ≤ totalValue l := by
  refine List.sum_nonneg ?_
  intro x hx
  obtain ⟨a, ha, rfl⟩ := List.mem_map.mp hx
  obtain ⟨h1, h2⟩ := h a ha
  exact le_of_lt (mul_pos h2 h1)

/-- When the side's total value is strictly below the remaining budget, the
buy walk of src/test.py consumes every level in full and ends with exactly
the budget minus the total value. -/
theorem TestPy.walk_buy_exhaust (s mid : ℚ) :
    ∀ (levels : List Level) (st : TestPy.WalkState),
    (∀ l ∈ levels, 0 < l.price ∧ 0 < l.qty) →
    totalValue levels < st.remaining →
    (TestPy.walk .buy s mid levels st).remaining = st.remaining - totalValue levels := by
  intro levels
  induction levels with
  | nil => intro st _ _; simp [TestPy.walk, totalValue]
  | cons l ls ih =>
    intro st hv htv
    obtain ⟨hp, hq⟩ := hv l (List.mem_cons_self l ls)
    have hvls : ∀ x ∈ ls, 0 < x.price ∧ 0 < x.qty :=
      fun x hx => hv x (List.mem_cons_of_mem l hx)
    have htv' : totalValue (l :: ls) = l.qty * l.price + totalValue ls := by
      simp [totalValue]
    have htls : 0 ≤ totalValue ls := totalValue_nonneg ls hvls
    have hval : 0 < l.qty * l.price := by positivity
    have hrem : 0 < st.remaining := by rw [htv'] at htv; linarith
    have hskip : ¬ (l.qty ≤ 0 ∨ l.price ≤ 0) := by
      push_neg; exact ⟨hq, hp⟩
    have hfull : ¬ (st.remaining ≤ l.qty * l.price) := by
      rw [htv'] at htv; push_neg; linarith
    simp only [TestPy.walk, if_neg (not_le.mpr hrem), if_neg hskip, if_neg hfull]
    rw [ih _ hvls (by rw [htv'] at htv; simpa using by linarith)]
    rw [htv']
    ring

/-- C4 counterexample: for the book with asks [(3, 1)] (total value 3) and
buy notional 700, test.py returns filled = false with filled_percent 0.43 —
the 2-decimal rounding of 3/7 percent — which differs from the claimed exact
value 100 * 3 / 700 by 1/700, far more than the claimed 1e-6 tolerance. -/
theorem c4_counterexample :
    TestPy.calculate_slippage ⟨[⟨1, 1⟩], [⟨3, 1⟩]⟩ 700 .buy =
      .notFilled (43/100) ∧
    ¬ (|(43 : ℚ)/100 - 100 * 3 / 700| ≤ 1/1000000) := by
  constructor
  · norm_num [TestPy.calculate_slippage, TestPy.walk, sortByKey, insertSorted,
      TestPy.listMax, TestPy.listMin, pyRound, roundHalfEven]
  · have habs : |(43 : ℚ)/100 - 100 * 3 / 700| = 1/700 := by
      rw [abs_of_pos] <;> norm_num
    rw [habs]
    norm_num

/-- C4 (amended): when a side's total value is below the requested positive
notional (by more than the fill tolerance), the walk of src/test.py is not an
error: it returns filled = false with fillPercent equal to
100 x totalBookValue / notionalUsd rounded half-even to TWO DECIMAL PLACES
(so only within 0.005 of the exact ratio, not within 1e-6); the engine of
src/internal_analytic/lighter_debug.py instead treats insufficient liquidity
(more than 1 USD remaining) as a no-result: calculate_execution_cost returns
None. -/
theorem c4_insufficient_liquidity (ob : TestPy.Orderbook) (s : ℚ)
    (hasks : ob.asks ≠ []) (hbids : ob.bids ≠ [])
    (hvalid : ∀ l ∈ ob.asks, 0 < l.price ∧ 0 < l.qty)
    (hs : 0 < s)
    (hins : totalValue ob.asks + 1/10000 < s) :
    TestPy.calculate_slippage ob s .buy =
      .notFilled (pyRound (100 * totalValue ob.asks / s) 2) ∧
    (∀ (asks : List Level) (mid s2 fee : ℚ),
      1 < s2 - (InternalAnalytic.execWalk asks s2).2 →
      InternalAnalytic.calculate_execution_cost asks mid s2 fee = none) := by
  constructor
  · have hperm : List.Perm (sortByKey (fun l => l.price) ob.asks) ob.asks :=
      sortByKey_perm _ _
    have htv : totalValue (sortByKey (fun l => l.price) ob.asks) =
        totalValue ob.asks := totalValue_perm hperm
    have hv' : ∀ l ∈ sortByKey (fun l => l.price) ob.asks,
        0 < l.price ∧ 0 < l.qty :=
      fun l hl => hvalid l (hperm.mem_iff.mp hl)
    obtain ⟨a, as, ha⟩ := List.exists_cons_of_ne_nil hasks
    have hnn : sortByKey (fun l => l.price) ob.asks ≠ [] := by
      rw [ha]; exact sortByKey_ne_nil _ _ _
    simp only [TestPy.calculate_slippage, if_neg hnn]
    rw [TestPy.walk_buy_exhaust _ _ _ _ hv' (by simpa [htv] using by linarith)]
    have hcond : (1 : ℚ)/10000 <
        (⟨s, 0, 0, 0, TestPy.listMin (ob.asks.map (fun a => a.price))⟩ :
          TestPy.WalkState).remaining - totalValue (sortByKey (fun l => l.price) ob.asks) := by
      simp only [htv]
      show (1 : ℚ)/10000 < s - totalValue ob.asks
      linarith
    rw [if_pos hcond]
    have harg : (s - ((⟨s, 0, 0, 0, TestPy.listMin (ob.asks.map (fun a => a.price))⟩ :
          TestPy.WalkState).remaining - totalValue (sortByKey (fun l => l.price) ob.asks))) / s * 100 =
        100 * totalValue ob.asks / s := by
      simp only [htv]
      show (s - (s - totalValue ob.asks)) / s * 100 = 100 * totalValue ob.asks / s
      ring
    rw [harg]
  · intro asks mid s2 fee h
    simp only [InternalAnalytic.calculate_execution_cost]
    rw [if_pos h]

/-- C4 witness: the amended test.py statement at the book with asks
[(2, 1), (3, 1)] (total value 5) and notional 100. -/
theorem c4_witness :
    TestPy.calculate_slippage ⟨[⟨1, 1⟩], [⟨2, 1⟩, ⟨3, 1⟩]⟩ 100 .buy =
      .notFilled (pyRound (100 * totalValue [⟨2, 1⟩, ⟨3, 1⟩] / 100) 2) :=
  (c4_insufficient_liquidity ⟨[⟨1, 1⟩], [⟨2, 1⟩, ⟨3, 1⟩]⟩ 100 (by simp) (by simp)
    (by norm_num) (by norm_num) (by norm_num [totalValue])).1

/-- Once the first counted level has converted the target (levels_used >= 1),
the sell walk of src/test.py performs exactly the quantity-denominated greedy
walk, with no further conversion. -/
theorem TestPy.walk_sell_converted :
    ∀ (levels : List Level) (s mid : ℚ) (st : TestPy.WalkState),
    1 ≤ st.levels_used →
    TestPy.walk .sell s mid levels st = specQtySellWalk levels st := by
  intro levels
  induction levels with
  | nil => intro s mid st _; rfl
  | cons l ls ih =>
    intro s mid st hst
    by_cases h0 : st.remaining ≤ 0
    · simp only [TestPy.walk, specQtySellWalk, if_pos h0]
    · by_cases hsk : l.qty ≤ 0 ∨ l.price ≤ 0
      · simp only [TestPy.walk, specQtySellWalk, if_neg h0, if_pos hsk]
        exact ih s mid st hst
      · have hne : ¬ (st.levels_used + 1 = 1) := by omega
        simp only [TestPy.walk, specQtySellWalk, if_neg h0, if_neg hsk, if_neg hne]
        by_cases hfit : st.remaining ≤ l.qty
        · simp only [if_pos hfit]
        · simp only [if_neg hfit]
          exact ih s mid _ (by simp)

/-- C3: sell mode is quantity-denominated: for a non-empty canonical bids
side, positive USD target and positive mid price, the sell walk of
src/test.py equals the spec's quantity-denominated greedy walk started from
the converted target s / mid.  For bids = [(99, 3)], mid price 100 (book
[(99, 3)] bids / [(101, 5)] asks) and sell target 1000 USD the target
quantity is 1000 / 100 = 10, the result is filled = false with
filled_percent 29.7, and the walk ends with remaining quantity 7. -/
theorem c3_sell_quantity_denominated :
    (∀ (levels : List Level) (s mid w : ℚ),
      levels ≠ [] →
      (∀ l ∈ levels, 0 < l.price ∧ 0 < l.qty) →
      0 < s → 0 < mid →
      TestPy.walk .sell s mid levels
          { remaining := s, total_qty := 0, total_cost := 0,
            levels_used := 0, worst_price := w } =
        specQtySellWalk levels
          { remaining := s / mid, total_qty := 0, total_cost := 0,
            levels_used := 0, worst_price := w }) ∧
    (1000 : ℚ) / 100 = 10 ∧
    TestPy.calculate_slippage ⟨[⟨99, 3⟩], [⟨101, 5⟩]⟩ 1000 .sell =
      .notFilled (297/10) ∧
    (TestPy.walk .sell 1000 100 [⟨99, 3⟩]
        { remaining := 1000, total_qty := 0, total_cost := 0,
          levels_used := 0, worst_price := 99 }).remaining = 7 := by
  refine ⟨fun levels s mid w hne hv hs hmid => ?_, by norm_num, ?_, ?_⟩
  · obtain ⟨l, ls, rfl⟩ := List.exists_cons_of_ne_nil hne
    obtain ⟨hp, hq⟩ := hv l (List.mem_cons_self l ls)
    have hskip : ¬ (l.qty ≤ 0 ∨ l.price ≤ 0) := by push_neg; exact ⟨hq, hp⟩
    have hsm : 0 < s / mid := div_pos hs hmid
    simp only [TestPy.walk, specQtySellWalk, if_neg (not_le.mpr hs),
      if_neg (not_le.mpr hsm), if_neg hskip]
    by_cases hfit : s / mid ≤ l.qty
    · simp [hfit]
    · simp only [Nat.zero_add, if_pos rfl, hfit, if_neg, if_false]
      rw [TestPy.walk_sell_converted ls s mid _ (by simp)]
      simp [hfit]
  · norm_num [TestPy.calculate_slippage, TestPy.walk, sortByKey, insertSorted,
      TestPy.listMax, TestPy.listMin, pyRound, roundHalfEven]
  · norm_num [TestPy.walk]

/-- C3 witness: the conversion equivalence at bids [(99, 3)], target 1000 and
mid price 100 (target quantity 1000 / 100). -/
theorem c3_witness :
    TestPy.walk .sell 1000 100 [⟨99, 3⟩]
        { remaining := 1000, total_qty := 0, total_cost := 0,
          levels_used := 0, worst_price := 99 } =
      specQtySellWalk [⟨99, 3⟩]
        { remaining := 1000 / 100, total_qty := 0, total_cost := 0,
          levels_used := 0, worst_price := 99 } :=
  c3_sell_quantity_denominated.1 [⟨99, 3⟩] 1000 100 99 (by simp) (by norm_num)
    (by norm_num) (by norm_num)

theorem min_sub_min_le {a b c : ℚ} (h : b ≤ a) : min a c - min b c ≤ a - b := by
  rcases le_total a c with h1 | h1 <;> rcases le_total b c with h2 | h2 <;>
    simp [min_eq_left, min_eq_right, h1, h2] <;> linarith

theorem execWalk_nonpos (levels : List Level) (t : ℚ) (h : t ≤ 0) :
    InternalAnalytic.execWalk levels t = (0, 0) := by
  cases levels with
  | nil => rfl
  | cons l ls => simp only [InternalAnalytic.execWalk, if_pos h]

/-- One unfolding of the execution-cost walk at a valid level with positive
remaining budget. -/
theorem execWalk_cons_pos (l : Level) (ls : List Level) (t : ℚ) (ht : 0 < t)
    (hp : 0 < l.price) (hq : 0 < l.qty) :
    InternalAnalytic.execWalk (l :: ls) t =
      (min (t / l.price) l.qty +
        (InternalAnalytic.execWalk ls (t - min (t / l.price) l.qty * l.price)).1,
       min (t / l.price) l.qty * l.price +
        (InternalAnalytic.execWalk ls (t - min (t / l.price) l.qty * l.price)).2) := by
  have hskip : ¬ (l.price ≤ 0 ∨ l.qty ≤ 0) := by push_neg; exact ⟨hp, hq⟩
  simp only [InternalAnalytic.execWalk, if_neg (not_le.mpr ht), if_neg hskip]

/-- The walk buys a non-negative quantity at a non-negative cost never
exceeding the available budget. -/
theorem execWalk_bounds (levels : List Level) :
    (∀ l ∈ levels, 0 < l.price ∧ 0 < l.qty) → ∀ t : ℚ,
    0 ≤ (InternalAnalytic.execWalk levels t).1 ∧
    0 ≤ (InternalAnalytic.execWalk levels t).2 ∧
    (InternalAnalytic.execWalk levels t).2 ≤ max t 0 := by
  induction levels with
  | nil => intro _ t; refine ⟨le_refl 0, le_refl 0, le_max_right t 0⟩
  | cons l ls ih =>
    intro hv t
    obtain ⟨hp, hq⟩ := hv l (List.mem_cons_self l ls)
    have hvls : ∀ x ∈ ls, 0 < x.price ∧ 0 < x.qty :=
      fun x hx => hv x (List.mem_cons_of_mem l hx)
    by_cases ht : t ≤ 0
    · rw [execWalk_nonpos _ _ ht]
      exact ⟨le_refl 0, le_refl 0, le_max_right t 0⟩
    · push_neg at ht
      rw [execWalk_cons_pos l ls t ht hp hq]
      have hf0 : 0 ≤ min (t / l.price) l.qty :=
        le_min (le_of_lt (div_pos ht hp)) hq.le
      have hfc : min (t / l.price) l.qty * l.price ≤ t := by
        have h1 : min (t / l.price) l.qty ≤ t / l.price := min_le_left _ _
        calc min (t / l.price) l.qty * l.price ≤ (t / l.price) * l.price :=
              mul_le_mul_of_nonneg_right h1 hp.le
          _ = t := by field_simp
      have hu : 0 ≤ t - min (t / l.price) l.qty * l.price := by linarith
      obtain ⟨h1, h2, h3⟩ := ih hvls (t - min (t / l.price) l.qty * l.qty * l.price / l.qty)
      obtain ⟨g1, g2, g3⟩ := ih hvls (t - min (t / l.price) l.qty * l.price)
      refine ⟨by positivity, ?_, ?_⟩
      · have : 0 ≤ min (t / l.price) l.qty * l.price := by positivity
        simpa using by linarith
      · have hmax : max (t - min (t / l.price) l.qty * l.price) 0 =
            t - min (t / l.price) l.qty * l.price := max_eq_left hu
        rw [hmax] at g3
        have : min (t / l.price) l.qty * l.price +
            (InternalAnalytic.execWalk ls (t - min (t / l.price) l.qty * l.price)).2 ≤ t := by
          linarith
        simpa using le_trans this (le_max_left t 0)

/-- Every unit bought by the walk costs at least the smallest price bound p:
p * quantity <= cost. -/
theorem execWalk_price_bound (levels : List Level) (p : ℚ) (hp : 0 < p) :
    (∀ l ∈ levels, p ≤ l.price ∧ 0 < l.price ∧ 0 < l.qty) → ∀ t : ℚ,
    p * (InternalAnalytic.execWalk levels t).1 ≤
      (InternalAnalytic.execWalk levels t).2 := by
  induction levels with
  | nil => intro _ t; simp [InternalAnalytic.execWalk]
  | cons l ls ih =>
    intro hv t
    obtain ⟨hpl, hlp, hlq⟩ := hv l (List.mem_cons_self l ls)
    have hvls : ∀ x ∈ ls, p ≤ x.price ∧ 0 < x.price ∧ 0 < x.qty :=
      fun x hx => hv x (List.mem_cons_of_mem l hx)
    by_cases ht : t ≤ 0
    · rw [execWalk_nonpos _ _ ht]; simp
    · push_neg at ht
      rw [execWalk_cons_pos l ls t ht hlp hlq]
      have hf0 : 0 ≤ min (t / l.price) l.qty :=
        le_min (le_of_lt (div_pos ht hlp)) hlq.le
      have h1 : p * min (t / l.price) l.qty ≤ min (t / l.price) l.qty * l.price := by
        calc p * min (t / l.price) l.qty ≤ l.price * min (t / l.price) l.qty :=
              mul_le_mul_of_nonneg_right hpl hf0
          _ = min (t / l.price) l.qty * l.price := mul_comm _ _
      have h2 := ih hvls (t - min (t / l.price) l.qty * l.price)
      simpa using by nlinarith [h1, h2]

/-- Marginal-cost bound: increasing the budget from t1 to t2 buys extra
quantity at a per-unit cost of at least p, the lower bound on all prices. -/
theorem execWalk_marginal (levels : List Level) (p : ℚ) (hp : 0 < p) :
    (∀ l ∈ levels, p ≤ l.price ∧ 0 < l.price ∧ 0 < l.qty) →
    ∀ t1 t2 : ℚ, t1 ≤ t2 →
    p * ((InternalAnalytic.execWalk levels t2).1 -
        (InternalAnalytic.execWalk levels t1).1) ≤
      (InternalAnalytic.execWalk levels t2).2 -
        (InternalAnalytic.execWalk levels t1).2 := by
  induction levels with
  | nil => intro _ t1 t2 _; simp [InternalAnalytic.execWalk]
  | cons l ls ih =>
    intro hv t1 t2 h12
    obtain ⟨hpl, hlp, hlq⟩ := hv l (List.mem_cons_self l ls)
    have hvls : ∀ x ∈ ls, p ≤ x.price ∧ 0 < x.price ∧ 0 < x.qty :=
      fun x hx => hv x (List.mem_cons_of_mem l hx)
    by_cases ht2 : t2 ≤ 0
    · rw [execWalk_nonpos _ _ ht2, execWalk_nonpos _ _ (le_trans h12 ht2)]
      simp
    · push_neg at ht2
      by_cases ht1 : t1 ≤ 0
      · rw [execWalk_nonpos _ _ ht1]
        simpa using execWalk_price_bound (l :: ls) p hp hv t2
      · push_neg at ht1
        rw [execWalk_cons_pos l ls t1 ht1 hlp hlq,
          execWalk_cons_pos l ls t2 ht2 hlp hlq]
        have hf12 : min (t1 / l.price) l.qty ≤ min (t2 / l.price) l.qty := by
          gcongr
        have hfd : (min (t2 / l.price) l.qty - min (t1 / l.price) l.qty) * l.price ≤
            t2 - t1 := by
          have h1 : min (t2 / l.price) l.qty - min (t1 / l.price) l.qty ≤
              t2 / l.price - t1 / l.price :=
            min_sub_min_le (by gcongr)
          calc (min (t2 / l.price) l.qty - min (t1 / l.price) l.qty) * l.price ≤
                (t2 / l.price - t1 / l.price) * l.price :=
                mul_le_mul_of_nonneg_right h1 hlp.le
            _ = t2 - t1 := by field_simp
        have hu12 : t1 - min (t1 / l.price) l.qty * l.price ≤
            t2 - min (t2 / l.price) l.qty * l.price := by nlinarith [hfd]
        have hIH := ih hvls (t1 - min (t1 / l.price) l.qty * l.price)
          (t2 - min (t2 / l.price) l.qty * l.price) hu12
        have hstep : p * (min (t2 / l.price) l.qty - min (t1 / l.price) l.qty) ≤
            (min (t2 / l.price) l.qty - min (t1 / l.price) l.qty) * l.price := by
          calc p * (min (t2 / l.price) l.qty - min (t1 / l.price) l.qty) ≤
                l.price * (min (t2 / l.price) l.qty - min (t1 / l.price) l.qty) :=
                mul_le_mul_of_nonneg_right hpl (by linarith)
            _ = _ := mul_comm _ _
        simpa using by nlinarith [hIH, hstep]

/-- Greedy average-price monotonicity: on a canonically sorted, valid side, a
larger budget never yields a smaller average price:
cost(t1) * qty(t2) <= cost(t2) * qty(t1). -/
theorem execWalk_avg_mono (levels : List Level) :
    levels.Pairwise (fun a c => a.price ≤ c.price) →
    (∀ l ∈ levels, 0 < l.price ∧ 0 < l.qty) →
    ∀ t1 t2 : ℚ, 0 < t1 → t1 ≤ t2 →
    (InternalAnalytic.execWalk levels t1).2 *
        (InternalAnalytic.execWalk levels t2).1 ≤
      (InternalAnalytic.execWalk levels t2).2 *
        (InternalAnalytic.execWalk levels t1).1 := by
  induction levels with
  | nil => intro _ _ t1 t2 _ _; simp [InternalAnalytic.execWalk]
  | cons l ls ih =>
    intro hpair hv t1 t2 ht1 h12
    rw [List.pairwise_cons] at hpair
    obtain ⟨hhead, htail⟩ := hpair
    obtain ⟨hlp, hlq⟩ := hv l (List.mem_cons_self l ls)
    have hvls : ∀ x ∈ ls, 0 < x.price ∧ 0 < x.qty :=
      fun x hx => hv x (List.mem_cons_of_mem l hx)
    have hbnd : ∀ x ∈ ls, l.price ≤ x.price ∧ 0 < x.price ∧ 0 < x.qty :=
      fun x hx => ⟨hhead x hx, (hvls x hx).1, (hvls x hx).2⟩
    have ht2 : 0 < t2 := lt_of_lt_of_le ht1 h12
    rw [execWalk_cons_pos l ls t1 ht1 hlp hlq,
      execWalk_cons_pos l ls t2 ht2 hlp hlq]
    rcases le_or_lt (t2 / l.price) l.qty with hA | hA
    · have hB : t1 / l.price ≤ l.qty :=
        le_trans (by gcongr) hA
      rw [min_eq_left hA, min_eq_left hB]
      have e1 : t1 / l.price * l.price = t1 := by field_simp
      have e2 : t2 / l.price * l.price = t2 := by field_simp
      rw [e1, e2, execWalk_nonpos ls _ (by linarith), execWalk_nonpos ls _ (by linarith)]
      simp only [Prod.fst, Prod.snd]
      refine le_of_eq ?_
      simpa using by ring
    · have hc2 : l.qty * l.price < t2 := by
        rw [lt_div_iff hlp] at hA; linarith
      rw [min_eq_right hA.le]
      rcases le_or_lt (t1 / l.price) l.qty with hB | hB
      · rw [min_eq_left hB]
        have e1 : t1 / l.price * l.price = t1 := by field_simp
        rw [e1, execWalk_nonpos ls _ (by linarith)]
        have hAp := execWalk_price_bound ls l.price hlp hbnd (t2 - l.qty * l.price)
        have hq2 : 0 ≤ (InternalAnalytic.execWalk ls (t2 - l.qty * l.price)).1 :=
          (execWalk_bounds ls hvls _).1
        have hc2nn : 0 ≤ (InternalAnalytic.execWalk ls (t2 - l.qty * l.price)).2 :=
          (execWalk_bounds ls hvls _).2.1
        simp only [Prod.fst, Prod.snd]
        have h1 : t1 * (InternalAnalytic.execWalk ls (t2 - l.qty * l.price)).1 ≤
            (InternalAnalytic.execWalk ls (t2 - l.qty * l.price)).2 * (t1 / l.price) := by
          have h0 : 0 ≤ t1 / l.price := by positivity
          calc t1 * (InternalAnalytic.execWalk ls (t2 - l.qty * l.price)).1 =
                (t1 / l.price) *
                  (l.price * (InternalAnalytic.execWalk ls (t2 - l.qty * l.price)).1) := by
                field_simp; ring
            _ ≤ (t1 / l.price) * (InternalAnalytic.execWalk ls (t2 - l.qty * l.price)).2 :=
                mul_le_mul_of_nonneg_left hAp h0
            _ = (InternalAnalytic.execWalk ls (t2 - l.qty * l.price)).2 * (t1 / l.price) :=
                mul_comm _ _
        have key : t1 * (l.qty + (InternalAnalytic.execWalk ls (t2 - l.qty * l.price)).1) ≤
            (l.qty * l.price + (InternalAnalytic.execWalk ls (t2 - l.qty * l.price)).2) *
              (t1 / l.price) := by
          have expand : (l.qty * l.price +
              (InternalAnalytic.execWalk ls (t2 - l.qty * l.price)).2) * (t1 / l.price) =
              l.qty * t1 +
                (InternalAnalytic.execWalk ls (t2 - l.qty * l.price)).2 * (t1 / l.price) := by
            field_simp
            ring
          rw [expand]
          have base : t1 * (l.qty + (InternalAnalytic.execWalk ls (t2 - l.qty * l.price)).1) =
              l.qty * t1 + t1 * (InternalAnalytic.execWalk ls (t2 - l.qty * l.price)).1 := by
            ring
          rw [base]
          linarith
        simpa using key
      · rw [min_eq_right hB.le]
        have hc1 : l.qty * l.price < t1 := by
          rw [lt_div_iff hlp] at hB; linarith
        have hu1 : 0 < t1 - l.qty * l.price := by linarith
        have hu12 : t1 - l.qty * l.price ≤ t2 - l.qty * l.price := by linarith
        have hIH := ih htail hvls (t1 - l.qty * l.price) (t2 - l.qty * l.price) hu1 hu12
        have hC := execWalk_marginal ls l.price hlp hbnd
          (t1 - l.qty * l.price) (t2 - l.qty * l.price) hu12
        have hq1 : 0 ≤ (InternalAnalytic.execWalk ls (t1 - l.qty * l.price)).1 :=
          (execWalk_bounds ls hvls _).1
        have hq2 : 0 ≤ (InternalAnalytic.execWalk ls (t2 - l.qty * l.price)).1 :=
          (execWalk_bounds ls hvls _).1
        have hcn1 : 0 ≤ (InternalAnalytic.execWalk ls (t1 - l.qty * l.price)).2 :=
          (execWalk_bounds ls hvls _).2.1
        have hcn2 : 0 ≤ (InternalAnalytic.execWalk ls (t2 - l.qty * l.price)).2 :=
          (execWalk_bounds ls hvls _).2.1
        have hC2 : l.qty * (l.price *
            ((InternalAnalytic.execWalk ls (t2 - l.qty * l.price)).1 -
              (InternalAnalytic.execWalk ls (t1 - l.qty * l.price)).1)) ≤
            l.qty * ((InternalAnalytic.execWalk ls (t2 - l.qty * l.price)).2 -
              (InternalAnalytic.execWalk ls (t1 - l.qty * l.price)).2) :=
          mul_le_mul_of_nonneg_left hC hlq.le
        simp only [Prod.fst, Prod.snd]
        nlinarith [hIH, hC2]

/-- C7: monotonicity of the execution cost: on a canonically sorted side with
at least two distinct prices, for positive sizes s1 <= s2 whose executions
both succeed, the reported totalCostBps at s2 is at least the one at s1. -/
theorem c7_total_cost_monotone (asks : List Level) (mid s1 s2 fee : ℚ)
    (r1 r2 : InternalAnalytic.ExecResult)
    (hsorted : asks.Pairwise (fun a c => a.price ≤ c.price))
    (hvalid : ∀ l ∈ asks, 0 < l.price ∧ 0 < l.qty)
    (hdistinct : ∃ a ∈ asks, ∃ c ∈ asks, a.price ≠ c.price)
    (hmid : 0 < mid) (hs1 : 0 < s1) (h12 : s1 ≤ s2)
    (h1 : InternalAnalytic.calculate_execution_cost asks mid s1 fee = some r1)
    (h2 : InternalAnalytic.calculate_execution_cost asks mid s2 fee = some r2) :
    r1.total_cost_bps ≤ r2.total_cost_bps := by
  simp only [InternalAnalytic.calculate_execution_cost] at h1 h2
  split_ifs at h1 h2 with hA1 hB1 hA2 hB2
  all_goals try exact Option.noConfusion h1
  all_goals try exact Option.noConfusion h2
  have e1 := Option.some.inj h1
  have e2 := Option.some.inj h2
  subst e1
  subst e2
  have hq1 : 0 < (InternalAnalytic.execWalk asks s1).1 :=
    lt_of_le_of_ne (execWalk_bounds asks hvalid s1).1 (Ne.symm hB1)
  have hq2 : 0 < (InternalAnalytic.execWalk asks s2).1 :=
    lt_of_le_of_ne (execWalk_bounds asks hvalid s2).1 (Ne.symm hB2)
  have hG := execWalk_avg_mono asks hsorted hvalid s1 s2 hs1 h12
  have havg : (InternalAnalytic.execWalk asks s1).2 / (InternalAnalytic.execWalk asks s1).1 ≤
      (InternalAnalytic.execWalk asks s2).2 / (InternalAnalytic.execWalk asks s2).1 :=
    (div_le_div_iff hq1 hq2).mpr hG
  have hsub : ((InternalAnalytic.execWalk asks s1).2 / (InternalAnalytic.execWalk asks s1).1 - mid) / mid ≤
      ((InternalAnalytic.execWalk asks s2).2 / (InternalAnalytic.execWalk asks s2).1 - mid) / mid :=
    (div_le_div_right hmid).mpr (by linarith)
  have hmul := mul_le_mul_of_nonneg_right hsub (by norm_num : (0:ℚ) ≤ 10000)
  dsimp only
  linarith

/-- C7 witness: the monotonicity instance on asks [(100, 5), (101, 10)] with
mid price 100, zero fee, and sizes 100 <= 600 (total costs 0 and 2000/121
basis points). -/
theorem c7_witness :
    (⟨100, 0, 0, 0, 0⟩ : InternalAnalytic.ExecResult).total_cost_bps ≤
      (⟨12120/121, 2000/121, 0, 0, 2000/121⟩ :
        InternalAnalytic.ExecResult).total_cost_bps :=
  c7_total_cost_monotone [⟨100, 5⟩, ⟨101, 10⟩] 100 100 600 0
    ⟨100, 0, 0, 0, 0⟩ ⟨12120/121, 2000/121, 0, 0, 2000/121⟩
    (by norm_num [List.pairwise_cons]) (by norm_num)
    ⟨⟨100, 5⟩, by norm_num, ⟨101, 10⟩, by norm_num, by norm_num⟩
    (by norm_num) (by norm_num) (by norm_num)
    (by norm_num [InternalAnalytic.calculate_execution_cost,
      InternalAnalytic.execWalk])
    (by norm_num [InternalAnalytic.calculate_execution_cost,
      InternalAnalytic.execWalk])
